import Mathlib

/-!
Verification development for the Graphics-Math library.

The C++ sources embedded here are `gfxmath.hh` (vector/matrix),
`gfxcolor.hh` (color depths and RGB), `gfximage.hh` (raster image and the
PPM codec `ppm_write` / `ppm_read`), and `gfxfilter.hh` (image filters).
The repository ships several revisions of `gfxfilter.hh`; where two
revisions of one function differ they are embedded as `_v1` (the earlier
revision, the first copy inside gfxfilter.hh) and `_v2` (the later
revision, the second copy inside gfxfilter.hh, identical to the one in
the unnamed part_001 file except where noted).

All image-level code is embedded at the `true_color_depth` instantiation
(uint8_t channels, max value 255), the depth the PPM codec operates on.
Channel values are modelled as `Nat`; the uint8_t range is carried as the
side condition `PixOk` where a claim needs it.  C++ `double`/`float`
intermediate arithmetic (grayscale weights, box-blur averaging, the int
accumulators of gfxmath.hh) is modelled by exact rational arithmetic over
`ℚ` with explicit truncation toward zero (`qTrunc`); every concrete
evaluation below lies far from an IEEE-754 rounding boundary, where the
exact and the floating-point computation give the same truncated integer.

A PPM file is modelled as its content, a `List Nat` of byte values; the
opening of the file and OS-level I/O errors are outside the model, so
`ppm_write` returns the bytes written and `ppm_read` consumes a byte
list.  `ppm_read` returns the pair (success flag, final state of the
`result` argument), because the claims speak about what is left in
`result` on failure.
-/

namespace Gfx

/-- One pixel: a (red, green, blue) triple of uint8_t channel
intensities, i.e. `rgb<true_color_depth>` from gfxcolor.hh. -/
structure Rgb where
  red : Nat
  green : Nat
  blue : Nat
deriving DecidableEq

/-- The color constant BLACK = hex_color(0x000000) of gfxcolor.hh,
converted to true color: all three channels zero.  It is the default
fill color of image::resize and of the filters. -/
def BLACK : Rgb := ⟨0, 0, 0⟩

/-- A pixel is a valid true-color value: each channel is within the
uint8_t range 0..255 (`color_depth::is_value` for `true_color_depth`). -/
def PixOk (p : Rgb) : Prop := p.red ≤ 255 ∧ p.green ≤ 255 ∧ p.blue ≤ 255

instance : DecidablePred PixOk := fun p => by unfold PixOk; infer_instance

/-- A raster image, `image<true_color_depth>` of gfximage.hh: the member
`_rows`, a vector of rows of pixels, top row first.  The empty image is
the empty list of rows. -/
abbrev Image : Type := List (List Rgb)

/-- image::height(): the number of rows. -/
def height (img : Image) : Nat := img.length

/-- image::width(): 0 when empty, otherwise the length of the first row. -/
def width : Image → Nat
  | [] => 0
  | row :: _ => row.length

/-- image::empty(). -/
def imgEmpty (img : Image) : Bool := img.isEmpty

/-- image::pixel(x, y).  The source asserts `is_x(x)` and `is_y(y)` on a
non-empty image; out of range the model defaults to BLACK. -/
def pixel (img : Image) (x y : Nat) : Rgb := (img.getD y []).getD x BLACK

/-- A write `pixel(x, y) = v` through the mutable reference returned by
image::pixel.  Out-of-range writes (excluded by the source's assertions)
are no-ops in the model. -/
def setPix (img : Image) (x y : Nat) (v : Rgb) : Image :=
  img.set y ((img.getD y []).set x v)

/-- The class invariant of image<>: `h` rows, each of length `w`. -/
def Rect (img : Image) (w h : Nat) : Prop :=
  img.length = h ∧ ∀ row ∈ img, row.length = w

instance : ∀ img w h, Decidable (Rect img w h) := fun img w h => by
  unfold Rect; infer_instance

/-- An ascending counted loop `for (k = 0; k < n; ++k) a = g(k, a)`,
the shape of every pixel loop in the sources. -/
def loopN {α : Type} (g : Nat → α → α) : Nat → α → α
  | 0, a => a
  | n + 1, a => g n (loopN g n a)

/-- A nested pixel-write loop
`for (i = 0; i < h; ++i) for (j = 0; j < w; ++j) img.pixel(x0+j, y0+i) = f j i`.
All the filter loops of gfxfilter.hh are instances of this shape; where a
source loop nests x outside y the writes target pairwise distinct cells
and the value written at a cell only reads the pre-loop state, so the
row-major order used here yields the identical image. -/
def writeRect (img : Image) (x0 y0 w h : Nat) (f : Nat → Nat → Rgb) : Image :=
  loopN (fun i acc => loopN (fun j acc2 => setPix acc2 (x0 + j) (y0 + i) (f j i)) w acc) h img

/-- std::vector::resize(n, v) semantics: truncate to n elements, or
extend with copies of v. -/
def listResize {α : Type} (l : List α) (n : Nat) (v : α) : List α :=
  l.take n ++ List.replicate (n - l.length) v

/-- image::resize(new_width, new_height, default_color) (gfximage.hh).
When the dimensions already match, no effect; otherwise `_rows` is
resized to the new height with filler rows of the old width, then every
row is resized to the new width, both fills using default_color.  The
source asserts new_width > 0 and new_height > 0. -/
def resize (img : Image) (w h : Nat) (d : Rgb) : Image :=
  if width img = w ∧ height img = h then img
  else (listResize img h (List.replicate (width img) d)).map
    (fun row => listResize row w d)

/-- image::fill(default_color): overwrite every pixel. -/
def fill (img : Image) (d : Rgb) : Image :=
  writeRect img 0 0 (width img) (height img) (fun _ _ => d)

/-- image::same_size(other, default_color): clear when other is empty,
else resize to other's dimensions. -/
def same_size (img other : Image) (d : Rgb) : Image :=
  if imgEmpty other then [] else resize img (width other) (height other) d

/-- The row comparison inside image::operator==:
`std::equal(_rows.begin(), _rows.end(), rhs._rows.begin())` walks this
image's rows and compares them against the corresponding prefix of rhs's
rows (row equality is std::vector's ==, i.e. same length and elements).
When rhs has fewer rows than lhs the C++ call would read past the end;
that unreachable case is totalized to false. -/
def rowsPrefixEq : Image → Image → Bool
  | [], _ => true
  | _ :: _, [] => false
  | r :: t, r2 :: t2 => decide (r = r2) && rowsPrefixEq t t2

/-- image::operator== (gfximage.hh): emptiness states agree and the rows
compare equal as above. -/
def imgBeq (a b : Image) : Bool := (imgEmpty a == imgEmpty b) && rowsPrefixEq a b

-- Exact-rational stand-in for the C++ double/float intermediates.

/-- Conversion of a rational to int with truncation toward zero, the
semantics of the C++ conversions double→int and double→uint8_t (for
in-range values). -/
def qTrunc (q : ℚ) : Int := q.num.tdiv (q.den : Int)

/-- Truncation toward zero into a Nat channel value; all uses are on
non-negative in-range quantities. -/
def qTruncNat (q : ℚ) : Nat := (qTrunc q).toNat

-- gfxfilter.hh.

/-- crop(after, before, left, top, width, height) (gfxfilter.hh, same in
both revisions): after.resize(width, height, BLACK); then
after.pixel(j, i) = before.pixel(left + j, top + i) for i < height,
j < width.  The source asserts the rectangle lies inside `before`. -/
def crop (after0 before : Image) (left top w h : Nat) : Image :=
  writeRect (resize after0 w h BLACK) 0 0 w h
    (fun j i => pixel before (left + j) (top + i))

/-- crop_extended_edges(after, before, pad_radius) (gfxfilter.hh, same in
both revisions): crop(after, before, r, r, before.width() - 2r,
before.height() - 2r).  The subtraction is C++ int subtraction; all
in-contract uses have width, height > 2r so Nat subtraction agrees. -/
def crop_extended_edges (after0 before : Image) (r : Nat) : Image :=
  crop after0 before r r (width before - 2 * r) (height before - 2 * r)

/-- extend_edges(after, before, pad_radius), first revision of
gfxfilter.hh (the body marked "TODO: replace this function body"):
resize after, fill it with BLACK, and copy `before` into the interior at
offset (pad_radius, pad_radius).  The border stays BLACK. -/
def extend_edges_v1 (after0 before : Image) (r : Nat) : Image :=
  writeRect (fill (resize after0 (width before + 2 * r) (height before + 2 * r) BLACK) BLACK)
    r r (width before) (height before) (fun j i => pixel before j i)

/-- extend_edges(after, before, pad_radius), second revision of
gfxfilter.hh: resize after, copy `before` into the interior, then fill
the four corner squares and the four side bands from the nearest edge
pixels of `before`, in the source's order (interior, corners A C G I,
bands B H D F).  All nine regions are pairwise disjoint. -/
def extend_edges_v2 (after0 before : Image) (r : Nat) : Image :=
  let w := width before
  let h := height before
  let a1 := resize after0 (w + 2 * r) (h + 2 * r) BLACK
  let a2 := writeRect a1 r r w h (fun j i => pixel before j i)
  let a3 := writeRect a2 0 0 r r (fun _ _ => pixel before 0 0)
  let a4 := writeRect a3 (w + r) 0 r r (fun _ _ => pixel before (w - 1) 0)
  let a5 := writeRect a4 0 (h + r) r r (fun _ _ => pixel before 0 (h - 1))
  let a6 := writeRect a5 (w + r) (h + r) r r (fun _ _ => pixel before (w - 1) (h - 1))
  let a7 := writeRect a6 r 0 w r (fun j _ => pixel before j 0)
  let a8 := writeRect a7 r (h + r) w r (fun j _ => pixel before j (h - 1))
  let a9 := writeRect a8 0 r r h (fun _ i => pixel before 0 i)
  writeRect a9 (w + r) r r h (fun _ i => pixel before (w - 1) i)

/-- grayscale(after, before), first revision of gfxfilter.hh: after is a
copy of before, then for every pixel each channel is separately scaled,
red by 0.2, green by 0.7 and blue by 0.1 (each assignment reads only the
not-yet-overwritten channel of the same pixel, so the loop is this
pointwise map).  The double weights 0.2/0.7/0.1 are modelled exactly as
2/10, 7/10, 1/10. -/
def grayscale_v1 (before : Image) : Image :=
  writeRect before 0 0 (width before) (height before)
    (fun j i =>
      let p := pixel before j i
      ⟨qTruncNat ((p.red : ℚ) * (2 / 10)),
       qTruncNat ((p.green : ℚ) * (7 / 10)),
       qTruncNat ((p.blue : ℚ) * (1 / 10))⟩)

/-- The shared gray intensity of the second-revision grayscale:
`int gray = red * 0.2 + green * 0.7 + blue * 0.1` computed in double and
truncated to int. -/
def luma (p : Rgb) : Nat :=
  qTruncNat ((p.red : ℚ) * (2 / 10) + (p.green : ℚ) * (7 / 10) + (p.blue : ℚ) * (1 / 10))

/-- grayscale(after, before), second revision of gfxfilter.hh (same body
in part_001): after is a copy of before, then for every pixel the gray
value is computed from the pixel's three original channels and assigned
to all three channels.  `gray` is read before any channel of the pixel
is overwritten, so the loop is this pointwise map of the source pixel. -/
def grayscale_v2 (before : Image) : Image :=
  writeRect before 0 0 (width before) (height before)
    (fun j i =>
      let g := luma (pixel before j i)
      ⟨g, g, g⟩)

/-- box_blur(after, before, radius), first revision of gfxfilter.hh: the
body contains only the argument assertions and hint comments, so `after`
is returned unchanged and `before` and `radius` are ignored. -/
def box_blur_v1 (after0 : Image) (_before : Image) (_radius : Nat) : Image :=
  after0

/-- box_blur(after, before, radius), revision in part_001:
after.same_size(before) (default fill BLACK), then for every pixel of
`after` it sums each of the three channels of that freshly-resized pixel
three times into a float, divides by 9, and assigns the truncated average
to all three channels.  `before`'s pixels and `radius` are never read.
The channel reads happen before the writes to the same pixel. -/
def box_blur_v2 (after0 before : Image) (_radius : Nat) : Image :=
  let a1 := same_size after0 before BLACK
  writeRect a1 0 0 (width a1) (height a1)
    (fun x y =>
      let p := pixel a1 x y
      let sum : ℚ := ((p.red : ℚ) + p.red + p.red) + ((p.green : ℚ) + p.green + p.green)
        + ((p.blue : ℚ) + p.blue + p.blue)
      let v := qTruncNat (sum / 9)
      ⟨v, v, v⟩)

-- The PPM codec (the gfxppm.hh section of gfximage.hh).

/-- isspace on a byte: space, \t, \n, \v, \f, \r. -/
def isSpaceB (c : Nat) : Bool := c = 32 || (9 ≤ c && c ≤ 13)

/-- A decimal digit byte. -/
def isDigitB (c : Nat) : Bool := 48 ≤ c && c ≤ 57

/-- ASCII decimal rendering of a nonnegative int, most significant digit
first, as written by `operator<<`.  Structural fuel recursion (the fuel
n + 1 always suffices since n / 10 < n). -/
def decRepAux : Nat → Nat → List Nat
  | 0, _ => []
  | fuel + 1, n => if n < 10 then [48 + n] else decRepAux fuel (n / 10) ++ [48 + n % 10]

def decRep (n : Nat) : List Nat := decRepAux (n + 1) n

/-- The header written by ppm_write: magic ("P6" or "P3"), ' ', width,
' ', height, ' ', the hardcoded maxval 255, '\n'. -/
def headerBytes (bin : Bool) (w h : Nat) : List Nat :=
  [80, if bin then 54 else 51] ++ [32] ++ decRep w ++ [32] ++ decRep h
    ++ [32] ++ decRep 255 ++ [10]

/-- Binary pixel samples of one row: three raw bytes per pixel. -/
def rowBytesBin : List Rgb → List Nat
  | [] => []
  | p :: t => p.red :: p.green :: p.blue :: rowBytesBin t

/-- Binary pixel data: rows in top-to-bottom order. -/
def bodyBin : Image → List Nat
  | [] => []
  | row :: t => rowBytesBin row ++ bodyBin t

/-- One ASCII sample as written: a space then the decimal intensity. -/
def sampleA (v : Nat) : List Nat := 32 :: decRep v

/-- ASCII pixel samples of one row. -/
def rowBytesA : List Rgb → List Nat
  | [] => []
  | p :: t => sampleA p.red ++ sampleA p.green ++ sampleA p.blue ++ rowBytesA t

/-- ASCII pixel data: one row of samples then '\n' per image row. -/
def bodyA : Image → List Nat
  | [] => []
  | row :: t => rowBytesA row ++ [10] ++ bodyA t

/-- ppm_write(image, path, binary_samples): the bytes written to the
file.  Opening the file and stream errors are outside the byte-list
model (on success the C++ function returns true having written exactly
these bytes). -/
def ppm_write (img : Image) (bin : Bool) : List Nat :=
  headerBytes bin (width img) (height img) ++ (if bin then bodyBin img else bodyA img)

/-- getline after '#': drop bytes through the first '\n'. -/
def dropLine : List Nat → List Nat
  | [] => []
  | c :: t => if c = 10 then t else dropLine t

/-- skip_whitespace_and_comments of ppm_read: repeatedly consume
whitespace runs and '#'-comment lines.  Structural fuel recursion; every
step consumes at least one byte so the list length is sufficient fuel. -/
def skipWCAux : Nat → List Nat → List Nat
  | 0, l => l
  | fuel + 1, l =>
    match l with
    | [] => []
    | c :: t =>
      if isSpaceB c then skipWCAux fuel t
      else if c = 35 then skipWCAux fuel (dropLine t)
      else c :: t

def skipWC (l : List Nat) : List Nat := skipWCAux l.length l

/-- The digit run at the head of the stream. -/
def takeDigits : List Nat → (List Nat × List Nat)
  | [] => ([], [])
  | c :: t =>
    if isDigitB c then
      let r := takeDigits t
      (c :: r.1, r.2)
    else ([], c :: t)

/-- Value of a most-significant-first digit-byte list. -/
def digitsVal (ds : List Nat) : Nat := ds.foldl (fun a c => a * 10 + (c - 48)) 0

/-- `f >> (int)`: skip whitespace, then an optional sign and a nonempty
digit run; no digits means the stream enters the failed state (none).
Int overflow of huge literals is outside the model. -/
def readInt (l : List Nat) : Option (Int × List Nat) :=
  match l.dropWhile (fun c => isSpaceB c) with
  | [] => none
  | c :: t =>
    if c = 45 then
      match takeDigits t with
      | ([], _) => none
      | (ds, r) => some (-(digitsVal ds : Int), r)
    else if c = 43 then
      match takeDigits t with
      | ([], _) => none
      | (ds, r) => some ((digitsVal ds : Int), r)
    else
      match takeDigits (c :: t) with
      | ([], _) => none
      | (ds, r) => some ((digitsVal ds : Int), r)

/-- C++ int division: truncation toward zero. -/
def cppDiv (a b : Int) : Int := a.tdiv b

/-- The normalization of ppm_read:
`int normalized_sample = (raw_sample * 255) / maxval`. -/
def normalizeSample (raw maxval : Int) : Int := cppDiv (raw * 255) maxval

/-- The store `result.pixel(x, y)[s] = normalized_sample`: conversion of
int to uint8_t, i.e. reduction mod 2^8. -/
def storeByte (n : Int) : Nat := (n % 256).toNat

/-- One binary sample: one raw byte when maxval < 256, else two bytes
most-significant first.  A short read is a stream failure (none).  The
bytes of a real file are < 256, for which `b0 * 256 + b1` equals the
source's `(int(bytes[0]) << 8) | int(bytes[1])`. -/
def readSampleBin (maxval : Int) : List Nat → Option (Int × List Nat)
  | [] => none
  | b :: t =>
    if maxval < 256 then some ((b : Int), t)
    else
      match t with
      | [] => none
      | b1 :: t1 => some ((b : Int) * 256 + (b1 : Int), t1)

/-- One raw sample in the selected mode. -/
def readSample (bin : Bool) (maxval : Int) (l : List Nat) : Option (Int × List Nat) :=
  if bin then readSampleBin maxval l else readInt l

/-- The inner `for s in 0..2` loop of ppm_read for one pixel: read three
raw samples, normalize each, and store them as the red, green, blue
channels (the three per-channel stores to one coordinate are combined
into one pixel write). -/
def readPix (bin : Bool) (maxval : Int) (l : List Nat) : Option (Rgb × List Nat) :=
  Option.bind (readSample bin maxval l) (fun s0 =>
  Option.bind (readSample bin maxval s0.2) (fun s1 =>
  Option.bind (readSample bin maxval s1.2) (fun s2 =>
  some (⟨storeByte (normalizeSample s0.1 maxval),
         storeByte (normalizeSample s1.1 maxval),
         storeByte (normalizeSample s2.1 maxval)⟩, s2.2))))

/-- The `for x in 0..width-1` loop of ppm_read for row y, with `rem`
pixels still to read starting at column x.  A sample failure aborts with
none (in the C++ the remaining reads no-op on the failed stream and the
final `if (!f)` check fires). -/
def readRowLoop (bin : Bool) (maxval : Int) :
    Nat → Nat → Nat → Image → List Nat → Option (Image × List Nat)
  | 0, _, _, st, l => some (st, l)
  | rem + 1, x, y, st, l =>
    Option.bind (readPix bin maxval l) (fun pr =>
    readRowLoop bin maxval rem (x + 1) y (setPix st x y pr.1) pr.2)

/-- The `for y in 0..height-1` loop of ppm_read, with `rem` rows still to
read starting at row y, each of width w. -/
def readRowsLoop (bin : Bool) (maxval : Int) :
    Nat → Nat → Nat → Image → List Nat → Option (Image × List Nat)
  | 0, _, _, st, l => some (st, l)
  | rem + 1, y, w, st, l =>
    Option.bind (readRowLoop bin maxval w 0 y st l) (fun sr =>
    readRowsLoop bin maxval rem (y + 1) w sr.1 sr.2)

/-- ppm_read(result, path) on the file content `input`, returning the
success flag and the final state of `result`.  Faithful failure paths:
a short magic read or a bad magic clears result; a header parse failure
or header validation failure returns false with result untouched (the
branch at the validity check has no clear); a pixel-section stream
failure clears result.  The file-not-found path (which clears) is
outside the byte-list model. -/
def ppm_read (result0 : Image) (input : List Nat) : Bool × Image :=
  match input with
  | m0 :: m1 :: rest =>
    if (m0 = 80 && m1 = 54) || (m0 = 80 && m1 = 51) then
      let bin : Bool := m1 = 54
      match readInt (skipWC rest) with
      | none => (false, result0)
      | some (w, r2) =>
        match readInt (skipWC r2) with
        | none => (false, result0)
        | some (h, r3) =>
          match readInt (skipWC r3) with
          | none => (false, result0)
          | some (maxval, r4) =>
            match r4 with
            | [] => (false, result0)
            | sw :: r5 =>
              if w ≤ 0 || h ≤ 0 || maxval ≤ 0 || 65536 ≤ maxval || !(isSpaceB sw) then
                (false, result0)
              else
                let st0 := resize result0 w.toNat h.toNat BLACK
                match readRowsLoop bin maxval h.toNat 0 w.toNat st0 r5 with
                | none => (false, [])
                | some sr => (true, sr.1)
    else (false, [])
  | _ => (false, [])

-- Proof-side regrouping of the writer's pixel data: one sample encoder
-- covering both modes, so the decoding lemmas can be stated once.

/-- One encoded sample: a raw byte in binary mode, ' ' then decimal
digits in ASCII mode. -/
def encS (bin : Bool) (v : Nat) : List Nat := if bin then [v] else 32 :: decRep v

/-- One encoded pixel: its three samples. -/
def pixEnc (bin : Bool) (p : Rgb) : List Nat :=
  encS bin p.red ++ encS bin p.green ++ encS bin p.blue

/-- One encoded row: its pixels' samples. -/
def rowEnc (bin : Bool) : List Rgb → List Nat
  | [] => []
  | p :: t => pixEnc bin p ++ rowEnc bin t

/-- The encoded pixel section: rows, with '\n' after each row in ASCII
mode. -/
def bodyEnc (bin : Bool) : Image → List Nat
  | [] => []
  | row :: t => rowEnc bin row ++ (if bin then [] else [10]) ++ bodyEnc bin t

-- gfxmath.hh: vector and matrix.

/-- gfx::vector::operator== (gfxmath.hh): walk the elements, returning
false at the first mismatch, else true.  Both operands have the same
DIMENSION in the C++ type, so the lists always have equal length; a
longer left list is totalized by ignoring the excess.  The scalar type
is modelled as ℚ (exact stand-in for int/float/double values). -/
def vecBeq : List ℚ → List ℚ → Bool
  | [], _ => true
  | _ :: _, [] => true
  | a :: t, b :: u => if a ≠ b then false else vecBeq t u

/-- gfx::matrix<scalar_type, H, W> (gfxmath.hh): the `_rows` array of row
vectors. -/
structure Mtx where
  rows : List (List ℚ)

/-- gfx::matrix::operator== (gfxmath.hh): the body is the unimplemented
stub `return false` (marked "TODO: replace this function body"). -/
def matBeq (_lhs _rhs : Mtx) : Bool := false

/-- gfx::matrix::operator!=: `!(*this == rhs)`. -/
def matNeq (lhs rhs : Mtx) : Bool := !(matBeq lhs rhs)

/-- The accumulation loop of gfx::vector::operator* (dot product):
`int sum = 0; sum += _elements[i] * rhs._elements[i];`.  The compound
assignment int += double truncates the partial sum toward zero at every
step. -/
def dotGo : Int → List ℚ → List ℚ → Int
  | s, x :: t, y :: u => dotGo (qTrunc ((s : ℚ) + x * y)) t u
  | s, _, _ => s

/-- gfx::vector::operator* with a vector argument (dot product): the int
accumulator, returned as the scalar type. -/
def vecDot (xs ys : List ℚ) : ℚ := ((dotGo 0 xs ys : Int) : ℚ)

/-- The accumulation loop of gfx::vector::magnitude_squared:
`int sos = 0; sos += pow(_elements[i], 2);`. -/
def magGo : Int → List ℚ → Int
  | s, [] => s
  | s, x :: t => magGo (qTrunc ((s : ℚ) + x ^ 2)) t

/-- gfx::vector::magnitude_squared: the int accumulator, returned as the
scalar type. -/
def magnitude_squared (xs : List ℚ) : ℚ := ((magGo 0 xs : Int) : ℚ)

-- ===================================================================
-- Lemmas and theorems.
-- ===================================================================

-- List helper lemmas.

theorem getD_set {α : Type} (l : List α) (i j : Nat) (v d : α) :
    (l.set i v).getD j d = if j = i ∧ i < l.length then v else l.getD j d := by
  induction l generalizing i j with
  | nil => simp
  | cons a t ih =>
    cases i with
    | zero =>
      cases j with
      | zero => simp
      | succ j => simp
    | succ i =>
      cases j with
      | zero => simp
      | succ j =>
        simp only [List.set_cons_succ, List.getD_cons_succ, ih, List.length_cons]
        have hiff : (j + 1 = i + 1 ∧ i + 1 < t.length + 1) ↔ (j = i ∧ i < t.length) := by
          omega
        simp only [hiff]

theorem getD_mem {α : Type} (l : List α) (i : Nat) (d : α) (h : i < l.length) :
    l.getD i d ∈ l := by
  induction l generalizing i with
  | nil => simp at h
  | cons a t ih =>
    cases i with
    | zero => simp
    | succ i =>
      simp only [List.getD_cons_succ]
      exact List.mem_cons_of_mem _ (ih i (by simpa using h))

theorem mem_set_cases {α : Type} (l : List α) (i : Nat) (v a : α)
    (h : a ∈ l.set i v) : a ∈ l ∨ a = v := by
  induction l generalizing i with
  | nil => simp at h
  | cons b t ih =>
    cases i with
    | zero =>
      rcases List.mem_cons.mp h with h1 | h1
      · exact Or.inr h1
      · exact Or.inl (List.mem_cons_of_mem _ h1)
    | succ i =>
      rcases List.mem_cons.mp h with h1 | h1
      · exact Or.inl (h1 ▸ List.mem_cons_self _ _)
      · rcases ih i h1 with h2 | h2
        · exact Or.inl (List.mem_cons_of_mem _ h2)
        · exact Or.inr h2

theorem getD_map_lt {α β : Type} (f : α → β) (l : List α) (y : Nat)
    (d : β) (d0 : α) (h : y < l.length) :
    (l.map f).getD y d = f (l.getD y d0) := by
  induction l generalizing y with
  | nil => simp at h
  | cons a t ih =>
    cases y with
    | zero => simp
    | succ y => simpa using ih y (by simpa using h)

theorem getD_replicate {α : Type} (n i : Nat) (v d : α) (h : i < n) :
    (List.replicate n v).getD i d = v := by
  induction n generalizing i with
  | zero => omega
  | succ n ih =>
    cases i with
    | zero => simp [List.replicate_succ]
    | succ i => simpa [List.replicate_succ] using ih i (by omega)

theorem list_ext_getD {α : Type} (d : α) :
    ∀ (l1 l2 : List α), l1.length = l2.length →
      (∀ i, i < l1.length → l1.getD i d = l2.getD i d) → l1 = l2 := by
  intro l1
  induction l1 with
  | nil => intro l2 hl _; cases l2 <;> simp_all
  | cons a t ih =>
    intro l2 hl hp
    cases l2 with
    | nil => simp at hl
    | cons b u =>
      have h0 := hp 0 (by simp)
      simp only [List.getD_cons_zero] at h0
      have ht : t = u := by
        refine ih u (by simpa using hl) ?_
        intro i hi
        have := hp (i + 1) (by simpa using Nat.succ_lt_succ hi)
        simpa using this
      rw [h0, ht]

theorem set_of_length_le {α : Type} (l : List α) (i : Nat) (v : α)
    (h : l.length ≤ i) : l.set i v = l := by
  induction l generalizing i with
  | nil => simp
  | cons a t ih =>
    cases i with
    | zero => simp at h
    | succ i => simp only [List.set_cons_succ]; rw [ih i (by simpa using h)]

-- Rect and pixel facts.

theorem rect_row_len (img : Image) (w h : Nat) (hr : Rect img w h)
    (y : Nat) (hy : y < h) : (img.getD y []).length = w := by
  exact hr.2 _ (getD_mem img y [] (by rw [hr.1]; exact hy))

theorem rect_width (img : Image) (w h : Nat) (hr : Rect img w h)
    (hh : 0 < h) : width img = w := by
  cases img with
  | nil => simp [hr.1.symm] at hh
  | cons row t => exact hr.2 row (List.mem_cons_self _ _)

theorem rect_setPix (img : Image) (w h : Nat) (hr : Rect img w h)
    (x y : Nat) (v : Rgb) : Rect (setPix img x y v) w h := by
  by_cases hy : y < img.length
  · constructor
    · simpa [setPix] using hr.1
    · intro row hrow
      rcases mem_set_cases _ _ _ _ hrow with h1 | h1
      · exact hr.2 _ h1
      · subst h1
        rw [List.length_set]
        exact hr.2 _ (getD_mem img y [] hy)
  · unfold setPix
    rw [set_of_length_le _ _ _ (by omega)]
    exact hr

theorem pixel_setPix (img : Image) (x y x' y' : Nat) (v : Rgb) :
    pixel (setPix img x y v) x' y' =
      if y' = y ∧ y < img.length ∧ x' = x ∧ x < (img.getD y []).length then v
      else pixel img x' y' := by
  unfold pixel setPix
  rw [getD_set]
  by_cases hyy : y' = y ∧ y < img.length
  · obtain ⟨h1, h2⟩ := hyy
    subst h1
    rw [if_pos ⟨rfl, h2⟩, getD_set]
    by_cases hxx : x' = x ∧ x < (img.getD y' []).length
    · rw [if_pos hxx, if_pos ⟨rfl, h2, hxx.1, hxx.2⟩]
    · rw [if_neg hxx, if_neg (by tauto)]
  · rw [if_neg hyy, if_neg (by tauto)]

theorem writeRow_pixel (W H : Nat) (img : Image) (hrect : Rect img W H)
    (x0 yy w : Nat) (f : Nat → Rgb) (hx : x0 + w ≤ W) (hy : yy < H) :
    Rect (loopN (fun j acc => setPix acc (x0 + j) yy (f j)) w img) W H ∧
    ∀ x y, pixel (loopN (fun j acc => setPix acc (x0 + j) yy (f j)) w img) x y =
      if y = yy ∧ x0 ≤ x ∧ x < x0 + w then f (x - x0) else pixel img x y := by
  induction w with
  | zero =>
    refine ⟨hrect, fun x y => ?_⟩
    rw [if_neg (by omega)]
    rfl
  | succ w ih =>
    obtain ⟨ihr, ihp⟩ := ih (by omega)
    refine ⟨rect_setPix _ _ _ ihr _ _ _, fun x y => ?_⟩
    show pixel (setPix _ (x0 + w) yy (f w)) x y = _
    rw [pixel_setPix]
    have hlen : (loopN (fun j acc => setPix acc (x0 + j) yy (f j)) w img).length = H := ihr.1
    have hrow : ((loopN (fun j acc => setPix acc (x0 + j) yy (f j)) w img).getD yy []).length = W :=
      rect_row_len _ _ _ ihr yy hy
    by_cases hcur : y = yy ∧ x = x0 + w
    · rw [if_pos ⟨hcur.1, by omega, hcur.2, by omega⟩, if_pos (by omega)]
      have hxw : x - x0 = w := by omega
      rw [hxw]
    · rw [if_neg (by rw [hlen, hrow]; tauto), ihp]
      by_cases hin : y = yy ∧ x0 ≤ x ∧ x < x0 + w
      · rw [if_pos hin, if_pos (by omega)]
      · rw [if_neg hin, if_neg (by omega)]

theorem writeRect_pixel (W H : Nat) (img : Image) (hrect : Rect img W H)
    (x0 y0 w h : Nat) (f : Nat → Nat → Rgb) (hx : x0 + w ≤ W) (hy : y0 + h ≤ H) :
    Rect (writeRect img x0 y0 w h f) W H ∧
    ∀ x y, pixel (writeRect img x0 y0 w h f) x y =
      if x0 ≤ x ∧ x < x0 + w ∧ y0 ≤ y ∧ y < y0 + h then f (x - x0) (y - y0)
      else pixel img x y := by
  induction h with
  | zero =>
    refine ⟨hrect, fun x y => ?_⟩
    rw [if_neg (by omega)]
    rfl
  | succ h ih =>
    obtain ⟨ihr, ihp⟩ := ih (by omega)
    have hrow := writeRow_pixel W H (writeRect img x0 y0 w h f) ihr
      x0 (y0 + h) w (fun j => f j h) hx (by omega)
    refine ⟨hrow.1, fun x y => ?_⟩
    show pixel (loopN (fun j acc => setPix acc (x0 + j) (y0 + h) (f j h)) w
      (writeRect img x0 y0 w h f)) x y = _
    rw [hrow.2, ihp]
    by_cases hcur : y = y0 + h ∧ x0 ≤ x ∧ x < x0 + w
    · rw [if_pos hcur, if_pos (by omega)]
      have hyh : y - y0 = h := by omega
      rw [hyh]
    · by_cases hin : x0 ≤ x ∧ x < x0 + w ∧ y0 ≤ y ∧ y < y0 + h
      · rw [if_neg hcur, if_pos hin, if_pos (by omega)]
      · rw [if_neg hcur, if_neg hin, if_neg (by omega)]

-- listResize and resize characterization.

theorem listResize_nil {α : Type} (n : Nat) (v : α) :
    listResize ([] : List α) n v = List.replicate n v := by
  simp [listResize]

theorem listResize_cons_succ {α : Type} (a : α) (t : List α) (n : Nat) (v : α) :
    listResize (a :: t) (n + 1) v = a :: listResize t n v := by
  simp [listResize, List.take_succ_cons]

theorem length_listResize {α : Type} (l : List α) (n : Nat) (v : α) :
    (listResize l n v).length = n := by
  simp only [listResize, List.length_append, List.length_take, List.length_replicate]
  omega

theorem getD_listResize {α : Type} (l : List α) (n : Nat) (v d : α)
    (i : Nat) (hi : i < n) :
    (listResize l n v).getD i d = if i < l.length then l.getD i d else v := by
  induction l generalizing n i with
  | nil =>
    rw [listResize_nil, getD_replicate _ _ _ _ hi]
    simp
  | cons a t ih =>
    cases n with
    | zero => omega
    | succ n =>
      rw [listResize_cons_succ]
      cases i with
      | zero => simp
      | succ i =>
        simp only [List.getD_cons_succ, List.length_cons]
        rw [ih n i (by omega)]
        have hiff : (i < t.length) ↔ (i + 1 < t.length + 1) := by omega
        simp only [hiff]

theorem rect_resize (img : Image) (w h : Nat) (d : Rgb)
    (hr : Rect img (width img) (height img)) : Rect (resize img w h d) w h := by
  unfold resize
  by_cases hcond : width img = w ∧ height img = h
  · rw [if_pos hcond, ← hcond.1, ← hcond.2]
    exact hr
  · rw [if_neg hcond]
    constructor
    · rw [List.length_map, length_listResize]
    · intro row hrow
      obtain ⟨row0, _, hmap⟩ := List.mem_map.mp hrow
      rw [← hmap, length_listResize]

theorem pixel_resize (img : Image) (W H w h : Nat) (d : Rgb)
    (hrect : Rect img W H) (x y : Nat) (hx : x < w) (hy : y < h) :
    pixel (resize img w h d) x y =
      if x < W ∧ y < H then pixel img x y else d := by
  unfold resize
  by_cases hcond : width img = w ∧ height img = h
  · rw [if_pos hcond]
    have hH : H = h := by rw [← hrect.1]; exact hcond.2
    subst hH
    have hW : W = w := by
      rw [← rect_width img W H hrect (by omega), hcond.1]
    subst hW
    rw [if_pos ⟨hx, hy⟩]
  · rw [if_neg hcond]
    unfold pixel
    have houter : ((listResize img h (List.replicate (width img) d)).map
        (fun row => listResize row w d)).getD y [] =
        listResize ((listResize img h (List.replicate (width img) d)).getD y []) w d := by
      exact getD_map_lt _ _ y [] [] (by rw [length_listResize]; exact hy)
    rw [houter, getD_listResize _ _ _ _ y hy]
    by_cases hyH : y < img.length
    · rw [if_pos hyH, getD_listResize _ _ _ _ x hx]
      have hH : y < H := by rw [← hrect.1]; exact hyH
      have hlen : (img.getD y []).length = W := rect_row_len img W H hrect y hH
      rw [hlen]
      by_cases hxW : x < W
      · rw [if_pos hxW, if_pos ⟨hxW, hH⟩]
      · rw [if_neg hxW, if_neg (by tauto)]
    · rw [if_neg hyH, getD_listResize _ _ _ _ x hx]
      have hyH2 : ¬ y < H := by rw [← hrect.1]; exact hyH
      have hrhs : ¬(x < W ∧ y < H) := by tauto
      rw [if_neg hrhs]
      by_cases hxw : x < (List.replicate (width img) d).length
      · rw [if_pos hxw, getD_replicate _ _ _ _ (by simpa using hxw)]
      · rw [if_neg hxw]

/-- Two images with the invariant `Rect w h` and identical pixels are
identical. -/
theorem rect_ext (w : Nat) : ∀ (h : Nat) (A B : Image), Rect A w h → Rect B w h →
    (∀ x y, x < w → y < h → pixel A x y = pixel B x y) → A = B := by
  intro h
  induction h with
  | zero =>
    intro A B hA hB _
    have hAn : A = [] := List.length_eq_zero.mp hA.1
    have hBn : B = [] := List.length_eq_zero.mp hB.1
    simp [hAn, hBn]
  | succ h ih =>
    intro A B hA hB hpix
    cases A with
    | nil => exact absurd hA.1 (by simp)
    | cons ra ta =>
      cases B with
      | nil => exact absurd hB.1 (by simp)
      | cons rb tb =>
        have hra : ra.length = w := hA.2 ra (List.mem_cons_self _ _)
        have hrb : rb.length = w := hB.2 rb (List.mem_cons_self _ _)
        have hrow : ra = rb := by
          refine list_ext_getD BLACK ra rb (by rw [hra, hrb]) ?_
          intro i hi
          have := hpix i 0 (by omega) (by omega)
          simpa [pixel] using this
        have htail : ta = tb := by
          refine ih ta tb ⟨by simpa using hA.1, fun row hr => hA.2 row (List.mem_cons_of_mem _ hr)⟩
            ⟨by simpa using hB.1, fun row hr => hB.2 row (List.mem_cons_of_mem _ hr)⟩ ?_
          intro x y hx hy
          have := hpix x (y + 1) hx (by omega)
          simpa [pixel] using this
        rw [hrow, htail]

theorem imgBeq_refl (img : Image) : imgBeq img img = true := by
  unfold imgBeq
  have hpre : ∀ l : Image, rowsPrefixEq l l = true := by
    intro l
    induction l with
    | nil => rfl
    | cons r t ih => simp [rowsPrefixEq, ih]
  simp [hpre img]

theorem rect_nil : Rect ([] : Image) 0 0 := by
  exact ⟨rfl, by intro row h; simp at h⟩

-- Characterization of crop with a fresh destination.

theorem crop_pixel (src : Image) (left top w h : Nat) :
    Rect (crop [] src left top w h) w h ∧
    ∀ x y, x < w → y < h →
      pixel (crop [] src left top w h) x y = pixel src (left + x) (top + y) := by
  have hbase : Rect (resize [] w h BLACK) w h := rect_resize [] w h BLACK rect_nil
  have hwr := writeRect_pixel w h (resize [] w h BLACK) hbase 0 0 w h
    (fun j i => pixel src (left + j) (top + i)) (by omega) (by omega)
  refine ⟨hwr.1, fun x y hx hy => ?_⟩
  show pixel (writeRect _ 0 0 w h _) x y = _
  rw [hwr.2, if_pos (by omega)]
  have h1 : x - 0 = x := by omega
  have h2 : y - 0 = y := by omega
  rw [h1, h2]

-- Characterization of the two extend_edges revisions on the interior.

theorem extend_v1_pixel (img : Image) (w h r : Nat) (hrect : Rect img w h)
    (hw : 0 < w) (hh : 0 < h) :
    Rect (extend_edges_v1 [] img r) (w + 2 * r) (h + 2 * r) ∧
    ∀ j i, j < w → i < h →
      pixel (extend_edges_v1 [] img r) (r + j) (r + i) = pixel img j i := by
  have hwi : width img = w := rect_width img w h hrect hh
  have hhi : height img = h := hrect.1
  unfold extend_edges_v1
  rw [hwi, hhi]
  have hbase : Rect (resize [] (w + 2 * r) (h + 2 * r) BLACK) (w + 2 * r) (h + 2 * r) :=
    rect_resize [] _ _ BLACK rect_nil
  have hwb : width (resize [] (w + 2 * r) (h + 2 * r) BLACK) = w + 2 * r :=
    rect_width _ _ _ hbase (by omega)
  have hhb : height (resize [] (w + 2 * r) (h + 2 * r) BLACK) = h + 2 * r := hbase.1
  have hfillr : Rect (fill (resize [] (w + 2 * r) (h + 2 * r) BLACK) BLACK)
      (w + 2 * r) (h + 2 * r) := by
    unfold fill
    rw [hwb, hhb]
    exact (writeRect_pixel _ _ _ hbase 0 0 _ _ _ (by omega) (by omega)).1
  have hwr := writeRect_pixel (w + 2 * r) (h + 2 * r) _ hfillr r r w h
    (fun j i => pixel img j i) (by omega) (by omega)
  refine ⟨hwr.1, fun j i hj hi => ?_⟩
  rw [hwr.2, if_pos (by omega)]
  have h1 : r + j - r = j := by omega
  have h2 : r + i - r = i := by omega
  rw [h1, h2]

theorem extend_v2_pixel (img : Image) (w h r : Nat) (hrect : Rect img w h)
    (hw : 0 < w) (hh : 0 < h) :
    Rect (extend_edges_v2 [] img r) (w + 2 * r) (h + 2 * r) ∧
    ∀ j i, j < w → i < h →
      pixel (extend_edges_v2 [] img r) (r + j) (r + i) = pixel img j i := by
  have hwi : width img = w := rect_width img w h hrect hh
  have hhi : height img = h := hrect.1
  simp only [extend_edges_v2, hwi, hhi]
  have h1 : Rect (resize [] (w + 2 * r) (h + 2 * r) BLACK) (w + 2 * r) (h + 2 * r) :=
    rect_resize [] _ _ BLACK rect_nil
  have h2 := writeRect_pixel (w + 2 * r) (h + 2 * r) _ h1 r r w h
    (fun j i => pixel img j i) (by omega) (by omega)
  have h3 := writeRect_pixel (w + 2 * r) (h + 2 * r) _ h2.1 0 0 r r
    (fun _ _ => pixel img 0 0) (by omega) (by omega)
  have h4 := writeRect_pixel (w + 2 * r) (h + 2 * r) _ h3.1 (w + r) 0 r r
    (fun _ _ => pixel img (w - 1) 0) (by omega) (by omega)
  have h5 := writeRect_pixel (w + 2 * r) (h + 2 * r) _ h4.1 0 (h + r) r r
    (fun _ _ => pixel img 0 (h - 1)) (by omega) (by omega)
  have h6 := writeRect_pixel (w + 2 * r) (h + 2 * r) _ h5.1 (w + r) (h + r) r r
    (fun _ _ => pixel img (w - 1) (h - 1)) (by omega) (by omega)
  have h7 := writeRect_pixel (w + 2 * r) (h + 2 * r) _ h6.1 r 0 w r
    (fun j _ => pixel img j 0) (by omega) (by omega)
  have h8 := writeRect_pixel (w + 2 * r) (h + 2 * r) _ h7.1 r (h + r) w r
    (fun j _ => pixel img j (h - 1)) (by omega) (by omega)
  have h9 := writeRect_pixel (w + 2 * r) (h + 2 * r) _ h8.1 0 r r h
    (fun _ i => pixel img 0 i) (by omega) (by omega)
  have h10 := writeRect_pixel (w + 2 * r) (h + 2 * r) _ h9.1 (w + r) r r h
    (fun _ i => pixel img (w - 1) i) (by omega) (by omega)
  refine ⟨h10.1, fun j i hj hi => ?_⟩
  rw [h10.2, if_neg (by omega), h9.2, if_neg (by omega), h8.2, if_neg (by omega),
    h7.2, if_neg (by omega), h6.2, if_neg (by omega), h5.2, if_neg (by omega),
    h4.2, if_neg (by omega), h3.2, if_neg (by omega), h2.2, if_pos (by omega)]
  have e1 : r + j - r = j := by omega
  have e2 : r + i - r = i := by omega
  rw [e1, e2]

-- ===================================================================
-- The claims.
-- ===================================================================

/-- C8: for every non-empty image and positive new dimensions,
image::resize gives exactly the new dimensions, keeps every pixel of the
overlapping top-left rectangle, and sets every newly created pixel to
the default color. -/
theorem c8_resize_frame (img : Image) (w h : Nat) (d : Rgb)
    (hrect : Rect img (width img) (height img))
    (hne : img ≠ []) (hw : 0 < w) (hh : 0 < h) :
    width (resize img w h d) = w ∧ height (resize img w h d) = h ∧
    (∀ x y, x < w → y < h → x < width img → y < height img →
      pixel (resize img w h d) x y = pixel img x y) ∧
    (∀ x y, x < w → y < h → ¬(x < width img ∧ y < height img) →
      pixel (resize img w h d) x y = d) := by
  have hr := rect_resize img w h d hrect
  refine ⟨rect_width _ _ _ hr hh, hr.1, ?_, ?_⟩
  · intro x y hx hy hxo hyo
    rw [pixel_resize img (width img) (height img) w h d hrect x y hx hy,
      if_pos ⟨hxo, hyo⟩]
  · intro x y hx hy hout
    rw [pixel_resize img (width img) (height img) w h d hrect x y hx hy,
      if_neg hout]

/-- Witness for C8 at a concrete input: a 1-by-1 image resized to 2-by-2. -/
theorem c8_resize_frame_witness :
    width (resize [[⟨1, 2, 3⟩]] 2 2 ⟨9, 9, 9⟩) = 2 ∧
    height (resize [[⟨1, 2, 3⟩]] 2 2 ⟨9, 9, 9⟩) = 2 ∧
    (∀ x y, x < 2 → y < 2 → x < width [[⟨1, 2, 3⟩]] → y < height [[⟨1, 2, 3⟩]] →
      pixel (resize [[⟨1, 2, 3⟩]] 2 2 ⟨9, 9, 9⟩) x y = pixel [[⟨1, 2, 3⟩]] x y) ∧
    (∀ x y, x < 2 → y < 2 → ¬(x < width [[⟨1, 2, 3⟩]] ∧ y < height [[⟨1, 2, 3⟩]]) →
      pixel (resize [[⟨1, 2, 3⟩]] 2 2 ⟨9, 9, 9⟩) x y = ⟨9, 9, 9⟩) :=
  c8_resize_frame [[⟨1, 2, 3⟩]] 2 2 ⟨9, 9, 9⟩ (by decide) (by decide)
    (by decide) (by decide)

/-- C9: matrix::operator== is the stub `return false`, so it returns
false for all operands (in particular it is not reflexive, and
operator!= holds reflexively), while vector::operator== compares
elementwise and is reflexive. -/
theorem c9_matrix_eq_stub :
    (∀ m n : Mtx, matBeq m n = false) ∧
    (∀ m : Mtx, matNeq m m = true) ∧
    (∀ v : List ℚ, vecBeq v v = true) := by
  refine ⟨fun _ _ => rfl, fun _ => rfl, fun v => ?_⟩
  induction v with
  | nil => rfl
  | cons a t ih => simp [vecBeq, ih]

theorem qTrunc_quarter_step : qTrunc ((0 : ℚ) + (1 / 2) * (1 / 2)) = 0 := by
  norm_num [qTrunc]
  decide

theorem qTrunc_quarter_sq : qTrunc ((0 : ℚ) + (1 / 2) ^ 2) = 0 := by
  norm_num [qTrunc]
  decide

/-- C10: the dot product and magnitude_squared of gfx::vector accumulate
in an int, so every returned value is an integer regardless of the
scalar type, and on the vector <0.5, 0.5, 0.5> both the dot product with
itself and magnitude_squared return 0 instead of 0.75. -/
theorem c10_int_accumulator :
    (∀ xs ys : List ℚ, ∃ k : ℤ, vecDot xs ys = (k : ℚ)) ∧
    vecDot [1 / 2, 1 / 2, 1 / 2] [1 / 2, 1 / 2, 1 / 2] = 0 ∧
    magnitude_squared [1 / 2, 1 / 2, 1 / 2] = 0 := by
  refine ⟨fun xs ys => ⟨dotGo 0 xs ys, rfl⟩, ?_, ?_⟩
  · unfold vecDot
    simp only [dotGo, Int.cast_zero, qTrunc_quarter_step]
  · unfold magnitude_squared
    simp only [magGo, Int.cast_zero, qTrunc_quarter_sq]

theorem qTruncNat_white_red : qTruncNat ((255 : ℚ) * (2 / 10)) = 51 := by
  norm_num [qTruncNat, qTrunc]
  decide

theorem qTruncNat_white_green : qTruncNat ((255 : ℚ) * (7 / 10)) = 178 := by
  norm_num [qTruncNat, qTrunc]
  decide

theorem qTruncNat_white_blue : qTruncNat ((255 : ℚ) * (1 / 10)) = 25 := by
  norm_num [qTruncNat, qTrunc]
  decide

theorem luma_white : luma ⟨255, 255, 255⟩ = 255 := by
  norm_num [luma, qTruncNat, qTrunc]
  decide

/-- C3 (code bug in the first revision): on the 1-by-1 white image the
first-revision grayscale multiplies each channel by its own weight,
yielding the non-gray pixel (51, 178, 25), while the claim (and the
second revision, shown alongside) assigns the one shared luma 255 to all
three channels. -/
theorem c3_grayscale_first_revision_bug :
    grayscale_v1 [[⟨255, 255, 255⟩]] = [[⟨51, 178, 25⟩]] ∧
    (51 : Nat) ≠ 178 ∧
    grayscale_v2 [[⟨255, 255, 255⟩]] = [[⟨255, 255, 255⟩]] := by
  have hrect : Rect [[(⟨255, 255, 255⟩ : Rgb)]] 1 1 := by decide
  refine ⟨?_, by decide, ?_⟩
  · unfold grayscale_v1
    rw [show width [[(⟨255, 255, 255⟩ : Rgb)]] = 1 from rfl,
      show height [[(⟨255, 255, 255⟩ : Rgb)]] = 1 from rfl]
    have hwr := writeRect_pixel 1 1 [[⟨255, 255, 255⟩]] hrect 0 0 1 1
      (fun j i =>
        let p := pixel [[⟨255, 255, 255⟩]] j i
        ⟨qTruncNat ((p.red : ℚ) * (2 / 10)),
         qTruncNat ((p.green : ℚ) * (7 / 10)),
         qTruncNat ((p.blue : ℚ) * (1 / 10))⟩) (by omega) (by omega)
    refine rect_ext 1 1 _ _ hwr.1 (by decide) ?_
    intro x y hx hy
    have hx0 : x = 0 := by omega
    have hy0 : y = 0 := by omega
    subst hx0; subst hy0
    rw [hwr.2, if_pos (by omega)]
    show (⟨qTruncNat ((255 : ℚ) * (2 / 10)), qTruncNat ((255 : ℚ) * (7 / 10)),
      qTruncNat ((255 : ℚ) * (1 / 10))⟩ : Rgb) = _
    rw [qTruncNat_white_red, qTruncNat_white_green, qTruncNat_white_blue]
    rfl
  · unfold grayscale_v2
    rw [show width [[(⟨255, 255, 255⟩ : Rgb)]] = 1 from rfl,
      show height [[(⟨255, 255, 255⟩ : Rgb)]] = 1 from rfl]
    have hwr := writeRect_pixel 1 1 [[⟨255, 255, 255⟩]] hrect 0 0 1 1
      (fun j i =>
        let g := luma (pixel [[⟨255, 255, 255⟩]] j i)
        ⟨g, g, g⟩) (by omega) (by omega)
    refine rect_ext 1 1 _ _ hwr.1 (by decide) ?_
    intro x y hx hy
    have hx0 : x = 0 := by omega
    have hy0 : y = 0 := by omega
    subst hx0; subst hy0
    rw [hwr.2, if_pos (by omega)]
    show (⟨luma ⟨255, 255, 255⟩, luma ⟨255, 255, 255⟩, luma ⟨255, 255, 255⟩⟩ : Rgb) = _
    rw [luma_white]
    rfl

/-- C4 (code bug in the first revision): extending the 1-by-1 white
image by pad_radius 1, the first-revision extend_edges leaves the whole
border BLACK (its body is the unfinished stub that only copies the
interior), while the claim (and the function's own diagram comment, and
the second revision shown alongside) require the border to replicate the
white edge pixel. -/
theorem c4_extend_edges_first_revision_bug :
    extend_edges_v1 [] [[⟨255, 255, 255⟩]] 1 =
      [[BLACK, BLACK, BLACK],
       [BLACK, ⟨255, 255, 255⟩, BLACK],
       [BLACK, BLACK, BLACK]] ∧
    extend_edges_v2 [] [[⟨255, 255, 255⟩]] 1 =
      [[⟨255, 255, 255⟩, ⟨255, 255, 255⟩, ⟨255, 255, 255⟩],
       [⟨255, 255, 255⟩, ⟨255, 255, 255⟩, ⟨255, 255, 255⟩],
       [⟨255, 255, 255⟩, ⟨255, 255, 255⟩, ⟨255, 255, 255⟩]] ∧
    BLACK ≠ (⟨255, 255, 255⟩ : Rgb) := by
  decide

/-- C6 (code bug): on a 1-by-1 solid red image with radius 1 and an
empty destination, the first-revision box_blur leaves the destination
empty (its body is only asserts and comments) and the part_001 revision
produces a black image (it averages the channels of the freshly resized
BLACK destination instead of blurring `before`); the claim requires the
destination to equal the uniform source. -/
theorem c6_box_blur_bug :
    box_blur_v1 [] [[⟨255, 0, 0⟩]] 1 = [] ∧
    box_blur_v2 [] [[⟨255, 0, 0⟩]] 1 = [[BLACK]] ∧
    ([] : Image) ≠ [[⟨255, 0, 0⟩]] ∧
    [[BLACK]] ≠ [[(⟨255, 0, 0⟩ : Rgb)]] := by
  refine ⟨rfl, ?_, by decide, by decide⟩
  have ha1 : same_size [] [[(⟨255, 0, 0⟩ : Rgb)]] BLACK = [[BLACK]] := by decide
  simp only [box_blur_v2, ha1]
  have hrect : Rect [[BLACK]] 1 1 := by decide
  have hwr := writeRect_pixel 1 1 [[BLACK]] hrect 0 0 1 1
    (fun x y =>
      let p := pixel [[BLACK]] x y
      let sum : ℚ := ((p.red : ℚ) + p.red + p.red) + ((p.green : ℚ) + p.green + p.green)
        + ((p.blue : ℚ) + p.blue + p.blue)
      let v := qTruncNat (sum / 9)
      ⟨v, v, v⟩) (by omega) (by omega)
  rw [show width [[(BLACK : Rgb)]] = 1 from rfl, show height [[(BLACK : Rgb)]] = 1 from rfl]
  refine rect_ext 1 1 _ _ hwr.1 (by decide) ?_
  intro x y hx hy
  have hx0 : x = 0 := by omega
  have hy0 : y = 0 := by omega
  subst hx0; subst hy0
  rw [hwr.2, if_pos (by omega)]
  show (⟨qTruncNat ((((0 : ℚ) + 0 + 0) + ((0 : ℚ) + 0 + 0) + ((0 : ℚ) + 0 + 0)) / 9),
    qTruncNat ((((0 : ℚ) + 0 + 0) + ((0 : ℚ) + 0 + 0) + ((0 : ℚ) + 0 + 0)) / 9),
    qTruncNat ((((0 : ℚ) + 0 + 0) + ((0 : ℚ) + 0 + 0) + ((0 : ℚ) + 0 + 0)) / 9)⟩ : Rgb) = _
  have hz : qTruncNat ((((0 : ℚ) + 0 + 0) + ((0 : ℚ) + 0 + 0) + ((0 : ℚ) + 0 + 0)) / 9) = 0 := by
    norm_num [qTruncNat, qTrunc]
  rw [hz]
  rfl

/-- C5: extend_edges (either revision) followed by crop_extended_edges
with the same positive pad_radius reproduces the original non-empty
image exactly, both as structural equality and under image::operator==. -/
theorem c5_extend_crop_roundtrip (img : Image) (w h r : Nat)
    (hrect : Rect img w h) (hw : 0 < w) (hh : 0 < h) (hr : 0 < r) :
    crop_extended_edges [] (extend_edges_v2 [] img r) r = img ∧
    crop_extended_edges [] (extend_edges_v1 [] img r) r = img ∧
    imgBeq (crop_extended_edges [] (extend_edges_v2 [] img r) r) img = true ∧
    imgBeq (crop_extended_edges [] (extend_edges_v1 [] img r) r) img = true := by
  have hv2 := extend_v2_pixel img w h r hrect hw hh
  have hv1 := extend_v1_pixel img w h r hrect hw hh
  have main : ∀ ext : Image, Rect ext (w + 2 * r) (h + 2 * r) →
      (∀ j i, j < w → i < h → pixel ext (r + j) (r + i) = pixel img j i) →
      crop_extended_edges [] ext r = img := by
    intro ext hre hpe
    unfold crop_extended_edges
    have hwe : width ext = w + 2 * r := rect_width _ _ _ hre (by omega)
    have hhe : height ext = h + 2 * r := hre.1
    rw [hwe, hhe]
    have hw2 : w + 2 * r - 2 * r = w := by omega
    have hh2 : h + 2 * r - 2 * r = h := by omega
    rw [hw2, hh2]
    have hcp := crop_pixel ext r r w h
    refine rect_ext w h _ img hcp.1 hrect ?_
    intro x y hx hy
    rw [hcp.2 x y hx hy, hpe x y hx hy]
  have e2 := main _ hv2.1 hv2.2
  have e1 := main _ hv1.1 hv1.2
  refine ⟨e2, e1, ?_, ?_⟩
  · rw [e2]; exact imgBeq_refl img
  · rw [e1]; exact imgBeq_refl img

/-- Witness for C5 at a concrete input: a 1-by-2 two-color image with
pad_radius 1. -/
theorem c5_extend_crop_roundtrip_witness :
    crop_extended_edges [] (extend_edges_v2 [] [[⟨1, 2, 3⟩], [⟨4, 5, 6⟩]] 1) 1 =
      [[⟨1, 2, 3⟩], [⟨4, 5, 6⟩]] ∧
    crop_extended_edges [] (extend_edges_v1 [] [[⟨1, 2, 3⟩], [⟨4, 5, 6⟩]] 1) 1 =
      [[⟨1, 2, 3⟩], [⟨4, 5, 6⟩]] ∧
    imgBeq (crop_extended_edges [] (extend_edges_v2 [] [[⟨1, 2, 3⟩], [⟨4, 5, 6⟩]] 1) 1)
      [[⟨1, 2, 3⟩], [⟨4, 5, 6⟩]] = true ∧
    imgBeq (crop_extended_edges [] (extend_edges_v1 [] [[⟨1, 2, 3⟩], [⟨4, 5, 6⟩]] 1) 1)
      [[⟨1, 2, 3⟩], [⟨4, 5, 6⟩]] = true :=
  c5_extend_crop_roundtrip [[⟨1, 2, 3⟩], [⟨4, 5, 6⟩]] 1 2 1
    (by decide) (by decide) (by decide) (by decide)

/-- C2 (code bug): on the file "P6 0 1 255\n" the header validation
fails (width 0), ppm_read returns false, and the result image passed in
— here a non-empty 1-by-1 image — is left untouched instead of being
cleared, contradicting the function's own comment "On failure, make
result empty and return false". -/
theorem c2_header_failure_leaves_result :
    ppm_read [[⟨9, 9, 9⟩]] [80, 54, 32, 48, 32, 49, 32, 50, 53, 53, 10] =
      (false, [[⟨9, 9, 9⟩]]) ∧
    imgEmpty [[(⟨9, 9, 9⟩ : Rgb)]] = false := by
  decide

/-- C7 counterexample: a file may contain a raw sample larger than its
max-sample-value.  On the file "P6 1 1 1\n" followed by the raw bytes
255 0 0, the first raw sample is 255 with maxval 1, the normalized value
is 65025 which violates the asserted bound 255, and the stored channel
is 65025 mod 256 = 1, not the normalized value. -/
theorem c7_normalization_counterexample :
    normalizeSample 255 1 = 65025 ∧
    ¬(normalizeSample 255 1 ≤ 255) ∧
    storeByte (normalizeSample 255 1) = 1 ∧
    ppm_read [] [80, 54, 32, 49, 32, 49, 32, 49, 10, 255, 0, 0] =
      (true, [[⟨1, 0, 0⟩]]) := by
  decide

/-- C7 as amended: when the raw sample lies in [0, maxval] (and maxval is
positive, as validation guarantees), the normalized sample
(raw * 255) / maxval is in [0, 255] and the stored uint8_t channel equals
it exactly. -/
theorem c7_normalization_in_range (raw maxval : Int)
    (hm : 0 < maxval) (h0 : 0 ≤ raw) (h1 : raw ≤ maxval) :
    0 ≤ normalizeSample raw maxval ∧ normalizeSample raw maxval ≤ 255 ∧
    (storeByte (normalizeSample raw maxval) : Int) = normalizeSample raw maxval := by
  have hnn : 0 ≤ raw * 255 := by positivity
  have hge : 0 ≤ normalizeSample raw maxval := Int.tdiv_nonneg hnn (by omega)
  have hle : normalizeSample raw maxval ≤ 255 := by
    unfold normalizeSample cppDiv
    rw [Int.tdiv_eq_ediv hnn (by omega)]
    calc raw * 255 / maxval ≤ maxval * 255 / maxval :=
          Int.ediv_le_ediv hm (by nlinarith)
      _ = 255 := Int.mul_ediv_cancel_left 255 (by omega)
  refine ⟨hge, hle, ?_⟩
  unfold storeByte
  rw [Int.emod_eq_of_lt hge (by omega), Int.toNat_of_nonneg hge]

/-- Witness for the amended C7 at raw = 128, maxval = 255. -/
theorem c7_normalization_in_range_witness :
    0 ≤ normalizeSample 128 255 ∧ normalizeSample 128 255 ≤ 255 ∧
    (storeByte (normalizeSample 128 255) : Int) = normalizeSample 128 255 :=
  c7_normalization_in_range 128 255 (by decide) (by decide) (by decide)

-- Decimal rendering and parsing lemmas for the round-trip proof.

theorem decRepAux_digits (fuel : Nat) : ∀ n, n < fuel →
    ∀ c ∈ decRepAux fuel n, isDigitB c = true := by
  induction fuel with
  | zero => intro n hn; omega
  | succ fuel ih =>
    intro n hn c hc
    unfold decRepAux at hc
    by_cases h10 : n < 10
    · rw [if_pos h10] at hc
      simp only [List.mem_singleton] at hc
      subst hc
      simp only [isDigitB, Bool.and_eq_true, decide_eq_true_eq]
      omega
    · rw [if_neg h10] at hc
      rcases List.mem_append.mp hc with h1 | h1
      · exact ih (n / 10) (by omega) c h1
      · simp only [List.mem_singleton] at h1
        subst h1
        simp only [isDigitB, Bool.and_eq_true, decide_eq_true_eq]
        omega

theorem decRep_digits (n : Nat) : ∀ c ∈ decRep n, isDigitB c = true :=
  decRepAux_digits (n + 1) n (by omega)

theorem decRepAux_ne_nil (fuel n : Nat) (h : n < fuel) : decRepAux fuel n ≠ [] := by
  cases fuel with
  | zero => omega
  | succ fuel =>
    unfold decRepAux
    by_cases h10 : n < 10
    · rw [if_pos h10]; simp
    · rw [if_neg h10]; simp

theorem decRep_ne_nil (n : Nat) : decRep n ≠ [] :=
  decRepAux_ne_nil (n + 1) n (by omega)

theorem digitsVal_append_digit (ds : List Nat) (c : Nat) :
    digitsVal (ds ++ [c]) = digitsVal ds * 10 + (c - 48) := by
  simp [digitsVal, List.foldl_append]

theorem decRepAux_val (fuel : Nat) : ∀ n, n < fuel →
    digitsVal (decRepAux fuel n) = n := by
  induction fuel with
  | zero => intro n hn; omega
  | succ fuel ih =>
    intro n hn
    unfold decRepAux
    by_cases h10 : n < 10
    · rw [if_pos h10]
      simp only [digitsVal, List.foldl_cons, List.foldl_nil]
      omega
    · rw [if_neg h10, digitsVal_append_digit, ih (n / 10) (by omega)]
      omega

theorem decRep_val (n : Nat) : digitsVal (decRep n) = n :=
  decRepAux_val (n + 1) n (by omega)

theorem digit_not_space (c : Nat) (h : isDigitB c = true) : isSpaceB c = false := by
  simp only [isDigitB, Bool.and_eq_true, decide_eq_true_eq] at h
  simp only [isSpaceB, Bool.or_eq_false_iff, Bool.and_eq_false_iff,
    decide_eq_false_iff_not]
  omega

theorem takeDigits_of_all (ds : List Nat) (rest : List Nat)
    (hds : ∀ c ∈ ds, isDigitB c = true)
    (hrest : ∀ c, rest.head? = some c → isDigitB c = false) :
    takeDigits (ds ++ rest) = (ds, rest) := by
  induction ds with
  | nil =>
    cases rest with
    | nil => rfl
    | cons c t =>
      have hc : isDigitB c = false := hrest c rfl
      simp [takeDigits, hc]
  | cons d t ih =>
    have hd : isDigitB d = true := hds d (List.mem_cons_self _ _)
    have ht := ih (fun c hc => hds c (List.mem_cons_of_mem _ hc))
    show takeDigits (d :: (t ++ rest)) = (d :: t, rest)
    unfold takeDigits
    rw [if_pos hd, ht]

theorem dropWhile_append_all {p : Nat → Bool} (pre l : List Nat)
    (h : ∀ c ∈ pre, p c = true) :
    List.dropWhile p (pre ++ l) = List.dropWhile p l := by
  induction pre with
  | nil => simp
  | cons c t ih =>
    have hc : p c = true := h c (List.mem_cons_self _ _)
    simp only [List.cons_append, List.dropWhile_cons, hc, if_pos]
    exact ih (fun c hc => h c (List.mem_cons_of_mem _ hc))

theorem headNotDigit_cons (c0 : Nat) (l : List Nat) (h : isDigitB c0 = false) :
    ∀ c, (c0 :: l).head? = some c → isDigitB c = false := by
  intro c hc
  simp only [List.head?_cons, Option.some.injEq] at hc
  rw [← hc]
  exact h

theorem digit_bounds (c : Nat) (h : isDigitB c = true) : 48 ≤ c ∧ c ≤ 57 := by
  simpa [isDigitB] using h

theorem readInt_enc (pre : List Nat) (v : Nat) (rest : List Nat)
    (hpre : ∀ c ∈ pre, isSpaceB c = true)
    (hrest : ∀ c, rest.head? = some c → isDigitB c = false) :
    readInt (pre ++ (decRep v ++ rest)) = some ((v : Int), rest) := by
  have hdig := decRep_digits v
  obtain ⟨d, ds, hds⟩ : ∃ d ds, decRep v = d :: ds := by
    cases hd : decRep v with
    | nil => exact absurd hd (decRep_ne_nil v)
    | cons a t => exact ⟨a, t, rfl⟩
  have hd : isDigitB d = true := by
    rw [hds] at hdig
    exact hdig d (List.mem_cons_self _ _)
  have hdb := digit_bounds d hd
  have htake : takeDigits (decRep v ++ rest) = (decRep v, rest) :=
    takeDigits_of_all _ _ hdig hrest
  unfold readInt
  rw [dropWhile_append_all pre _ hpre, hds, List.cons_append, List.dropWhile_cons,
    digit_not_space d hd]
  simp only [Bool.false_eq_true, if_false]
  rw [if_neg (by omega), if_neg (by omega), ← List.cons_append, ← hds, htake, hds]
  simp only
  rw [← hds, decRep_val]

theorem readInt_enc0 (v : Nat) (rest : List Nat)
    (hrest : ∀ c, rest.head? = some c → isDigitB c = false) :
    readInt (decRep v ++ rest) = some ((v : Int), rest) := by
  have := readInt_enc [] v rest (by intro c hc; simp at hc) hrest
  simpa using this

theorem decodeSample_id (v : Nat) (hv : v ≤ 255) :
    storeByte (normalizeSample (v : Int) 255) = v := by
  have h1 : normalizeSample (v : Int) 255 = (v : Int) := by
    unfold normalizeSample cppDiv
    exact Int.mul_tdiv_cancel _ (by norm_num)
  rw [h1]
  unfold storeByte
  rw [Int.emod_eq_of_lt (by omega) (by omega)]
  exact Int.toNat_natCast v

theorem readSample_enc (bin : Bool) (pre : List Nat) (v : Nat) (rest : List Nat)
    (hpre : ∀ c ∈ pre, isSpaceB c = true)
    (hbin : bin = true → pre = [])
    (hrest : bin = false → ∀ c, rest.head? = some c → isDigitB c = false) :
    readSample bin 255 (pre ++ (encS bin v ++ rest)) = some ((v : Int), rest) := by
  cases bin with
  | true =>
    rw [hbin rfl]
    show readSampleBin 255 (v :: rest) = _
    simp only [readSampleBin]
    rw [if_pos (by norm_num)]
  | false =>
    show readInt (pre ++ ((32 :: decRep v) ++ rest)) = _
    have hsh : pre ++ ((32 :: decRep v) ++ rest) = (pre ++ [32]) ++ (decRep v ++ rest) := by
      simp
    rw [hsh]
    refine readInt_enc (pre ++ [32]) v rest ?_ (hrest rfl)
    intro c hc
    rcases List.mem_append.mp hc with h1 | h1
    · exact hpre c h1
    · simp only [List.mem_singleton] at h1
      subst h1
      decide

theorem readSample_enc0 (bin : Bool) (v : Nat) (rest : List Nat)
    (hrest : bin = false → ∀ c, rest.head? = some c → isDigitB c = false) :
    readSample bin 255 (encS bin v ++ rest) = some ((v : Int), rest) := by
  have := readSample_enc bin [] v rest (by intro c hc; simp at hc)
    (fun _ => rfl) hrest
  simpa using this

theorem readPix_enc (bin : Bool) (pre : List Nat) (p : Rgb) (rest : List Nat)
    (hpre : ∀ c ∈ pre, isSpaceB c = true)
    (hbin : bin = true → pre = [])
    (hrest : bin = false → ∀ c, rest.head? = some c → isDigitB c = false)
    (hok : PixOk p) :
    readPix bin 255 (pre ++ (pixEnc bin p ++ rest)) = some (p, rest) := by
  obtain ⟨pr, pg, pb⟩ := p
  obtain ⟨h1, h2, h3⟩ := hok
  have hmid : ∀ u : Nat, ∀ l : List Nat, bin = false →
      ∀ c, (encS bin u ++ l).head? = some c → isDigitB c = false := by
    intro u l hbf
    rw [hbf]
    show ∀ c, ((32 :: decRep u) ++ l).head? = some c → isDigitB c = false
    rw [List.cons_append]
    exact headNotDigit_cons 32 _ (by decide)
  have e1 : pre ++ (pixEnc bin ⟨pr, pg, pb⟩ ++ rest)
      = pre ++ (encS bin pr ++ (encS bin pg ++ (encS bin pb ++ rest))) := by
    simp [pixEnc]
  rw [e1]
  unfold readPix
  rw [readSample_enc bin pre pr _ hpre hbin (fun hbf => hmid pg _ hbf), Option.some_bind]
  simp only []
  rw [readSample_enc0 bin pg _ (fun hbf => hmid pb _ hbf), Option.some_bind]
  simp only []
  rw [readSample_enc0 bin pb _ hrest, Option.some_bind]
  simp only []
  rw [decodeSample_id pr h1, decodeSample_id pg h2, decodeSample_id pb h3]

theorem rowEnc_headNotDigit (bin : Bool) (t : List Rgb) (rest : List Nat)
    (hrest : bin = false → ∀ c, rest.head? = some c → isDigitB c = false) :
    bin = false → ∀ c, (rowEnc bin t ++ rest).head? = some c → isDigitB c = false := by
  intro hbf
  cases t with
  | nil =>
    simp only [rowEnc, List.nil_append]
    exact hrest hbf
  | cons q u =>
    subst hbf
    show ∀ c, ((pixEnc false q ++ rowEnc false u) ++ rest).head? = some c → isDigitB c = false
    have hshape : (pixEnc false q ++ rowEnc false u) ++ rest
        = 32 :: (decRep q.red ++ (encS false q.green ++ encS false q.blue ++ rowEnc false u ++ rest)) := by
      simp [pixEnc, encS]
    rw [hshape]
    exact headNotDigit_cons 32 _ (by decide)

theorem readRow_enc (bin : Bool) (W H : Nat) :
    ∀ (row : List Rgb) (x y : Nat) (st : Image) (pre rest : List Nat),
      Rect st W H →
      (∀ p ∈ row, PixOk p) →
      x + row.length ≤ W → y < H →
      (∀ c ∈ pre, isSpaceB c = true) →
      (bin = true → pre = []) →
      (row = [] → pre = []) →
      (bin = false → ∀ c, rest.head? = some c → isDigitB c = false) →
      ∃ st2, readRowLoop bin 255 row.length x y st (pre ++ (rowEnc bin row ++ rest))
          = some (st2, rest) ∧ Rect st2 W H ∧
        ∀ a b, pixel st2 a b =
          if b = y ∧ x ≤ a ∧ a < x + row.length then row.getD (a - x) BLACK
          else pixel st a b := by
  intro row
  induction row with
  | nil =>
    intro x y st pre rest hrect _ _ _ _ _ hprenil _
    rw [hprenil rfl]
    refine ⟨st, ?_, hrect, ?_⟩
    · simp [readRowLoop, rowEnc]
    · intro a b
      rw [if_neg (by simp only [List.length_nil]; omega)]
  | cons p t ih =>
    intro x y st pre rest hrect hok hxw hy hpre hbin hprenil hrest
    have hstl : st.length = H := hrect.1
    have hrl : (st.getD y []).length = W := rect_row_len st W H hrect y hy
    have hxW : x < W := by
      simp only [List.length_cons] at hxw
      omega
    have hshape : pre ++ (rowEnc bin (p :: t) ++ rest)
        = pre ++ (pixEnc bin p ++ (rowEnc bin t ++ rest)) := by
      simp [rowEnc]
    rw [hshape]
    have hpix := readPix_enc bin pre p (rowEnc bin t ++ rest) hpre hbin
      (rowEnc_headNotDigit bin t rest hrest) (hok p (List.mem_cons_self _ _))
    have hstep : readRowLoop bin 255 (p :: t).length x y st
        (pre ++ (pixEnc bin p ++ (rowEnc bin t ++ rest)))
        = readRowLoop bin 255 t.length (x + 1) y (setPix st x y p) (rowEnc bin t ++ rest) := by
      show Option.bind (readPix bin 255 (pre ++ (pixEnc bin p ++ (rowEnc bin t ++ rest)))) _ = _
      rw [hpix, Option.some_bind]
    obtain ⟨st2, hloop, hrect2, hchar⟩ := ih (x + 1) y (setPix st x y p) [] rest
      (rect_setPix st W H hrect x y p)
      (fun q hq => hok q (List.mem_cons_of_mem _ hq))
      (by simp only [List.length_cons] at hxw; omega) hy
      (by intro c hc; simp at hc) (fun _ => rfl) (fun _ => rfl) hrest
    rw [List.nil_append] at hloop
    refine ⟨st2, ?_, hrect2, ?_⟩
    · rw [hstep]
      exact hloop
    · intro a b
      rw [hchar a b, pixel_setPix, hstl, hrl]
      simp only [List.length_cons]
      by_cases hc1 : b = y ∧ x + 1 ≤ a ∧ a < x + 1 + t.length
      · rw [if_pos hc1, if_pos (by omega)]
        have hidx : a - x = (a - (x + 1)) + 1 := by omega
        rw [hidx, List.getD_cons_succ]
      · rw [if_neg hc1]
        by_cases hc2 : b = y ∧ y < H ∧ a = x ∧ x < W
        · rw [if_pos hc2, if_pos (by omega)]
          have hidx : a - x = 0 := by omega
          rw [hidx, List.getD_cons_zero]
        · rw [if_neg hc2, if_neg (by omega)]

theorem readRows_enc (bin : Bool) (W H : Nat) (hW : 0 < W) :
    ∀ (rows : List (List Rgb)) (y : Nat) (st : Image) (pre rest : List Nat),
      Rect st W H →
      (∀ row ∈ rows, row.length = W ∧ ∀ p ∈ row, PixOk p) →
      y + rows.length ≤ H →
      (∀ c ∈ pre, isSpaceB c = true) →
      (bin = true → pre = []) →
      ∃ st2 lf, readRowsLoop bin 255 rows.length y W st (pre ++ (bodyEnc bin rows ++ rest))
          = some (st2, lf) ∧ Rect st2 W H ∧
        ∀ a b, pixel st2 a b =
          if y ≤ b ∧ b < y + rows.length ∧ a < W then (rows.getD (b - y) []).getD a BLACK
          else pixel st a b := by
  intro rows
  induction rows with
  | nil =>
    intro y st pre rest hrect _ _ _ _
    refine ⟨st, pre ++ (bodyEnc bin [] ++ rest), rfl, hrect, ?_⟩
    intro a b
    rw [if_neg (by simp only [List.length_nil]; omega)]
  | cons row t ih =>
    intro y st pre rest hrect hok hlen hpre hbin
    have hrowlen : row.length = W := (hok row (List.mem_cons_self _ _)).1
    have hyH : y < H := by
      simp only [List.length_cons] at hlen
      omega
    have hshape : pre ++ (bodyEnc bin (row :: t) ++ rest)
        = pre ++ (rowEnc bin row ++ ((if bin then [] else [10]) ++ (bodyEnc bin t ++ rest))) := by
      simp [bodyEnc]
    rw [hshape]
    have hsepHead : bin = false →
        ∀ c, ((if bin then ([] : List Nat) else [10]) ++ (bodyEnc bin t ++ rest)).head?
          = some c → isDigitB c = false := by
      intro hbf
      rw [hbf]
      show ∀ c, ((10 :: []) ++ (bodyEnc false t ++ rest)).head? = some c → isDigitB c = false
      rw [List.cons_append]
      exact headNotDigit_cons 10 _ (by decide)
    obtain ⟨st1, hloop1, hrect1, hchar1⟩ := readRow_enc bin W H row 0 y st pre
      ((if bin then [] else [10]) ++ (bodyEnc bin t ++ rest)) hrect
      (hok row (List.mem_cons_self _ _)).2 (by omega) hyH hpre hbin
      (fun hemp => absurd hrowlen (by rw [hemp]; simpa using (by omega : ¬ 0 = W)))
      hsepHead
    have hstep : readRowsLoop bin 255 (row :: t).length y W st
        (pre ++ (rowEnc bin row ++ ((if bin then [] else [10]) ++ (bodyEnc bin t ++ rest))))
        = readRowsLoop bin 255 t.length (y + 1) W st1
          ((if bin then [] else [10]) ++ (bodyEnc bin t ++ rest)) := by
      show Option.bind (readRowLoop bin 255 W 0 y st _) _ = _
      rw [← hrowlen, hloop1, Option.some_bind]
    obtain ⟨st2, lf, hloop2, hrect2, hchar2⟩ := ih (y + 1) st1
      (if bin then [] else [10]) rest hrect1
      (fun r hr => hok r (List.mem_cons_of_mem _ hr))
      (by simp only [List.length_cons] at hlen; omega)
      (by cases bin <;> simp <;> decide)
      (by intro hbt; rw [hbt]; simp)
    refine ⟨st2, lf, ?_, hrect2, ?_⟩
    · rw [hstep]
      exact hloop2
    · intro a b
      rw [hchar2 a b, hchar1 a b]
      simp only [List.length_cons]
      by_cases hc1 : y + 1 ≤ b ∧ b < y + 1 + t.length ∧ a < W
      · rw [if_pos hc1, if_pos (by omega)]
        have hidx : b - y = (b - (y + 1)) + 1 := by omega
        rw [hidx, List.getD_cons_succ]
      · rw [if_neg hc1]
        by_cases hc2 : b = y ∧ 0 ≤ a ∧ a < 0 + row.length
        · rw [if_pos hc2, if_pos (by omega)]
          have hidx : b - y = 0 := by omega
          have hidx2 : a - 0 = a := by omega
          rw [hidx, hidx2, List.getD_cons_zero]
        · rw [if_neg hc2, if_neg (by omega)]

-- The writer's two pixel-data layouts coincide with the unified
-- encoding used by the decoding lemmas.

theorem rowBytesBin_eq (row : List Rgb) : rowBytesBin row = rowEnc true row := by
  induction row with
  | nil => rfl
  | cons p t ih => simp [rowBytesBin, rowEnc, pixEnc, encS, ih]

theorem bodyBin_eq (img : Image) : bodyBin img = bodyEnc true img := by
  induction img with
  | nil => rfl
  | cons row t ih => simp [bodyBin, bodyEnc, rowBytesBin_eq, ih]

theorem rowBytesA_eq (row : List Rgb) : rowBytesA row = rowEnc false row := by
  induction row with
  | nil => rfl
  | cons p t ih => simp [rowBytesA, rowEnc, pixEnc, encS, sampleA, ih]

theorem bodyA_eq (img : Image) : bodyA img = bodyEnc false img := by
  induction img with
  | nil => rfl
  | cons row t ih => simp [bodyA, bodyEnc, rowBytesA_eq, ih]

-- skip_whitespace_and_comments on the comment-free streams the writer
-- produces.

theorem skipWC_cons_space (c : Nat) (l : List Nat) (h : isSpaceB c = true) :
    skipWC (c :: l) = skipWC l := by
  simp [skipWC, skipWCAux, h]

theorem skipWC_stop (c : Nat) (l : List Nat) (h1 : isSpaceB c = false)
    (h2 : c ≠ 35) : skipWC (c :: l) = c :: l := by
  simp [skipWC, skipWCAux, h1, h2]

theorem skipWC_digit_head (ds rest : List Nat) (hne : ds ≠ [])
    (hds : ∀ c ∈ ds, isDigitB c = true) :
    skipWC (ds ++ rest) = ds ++ rest := by
  cases ds with
  | nil => exact absurd rfl hne
  | cons d t =>
    have hd := hds d (List.mem_cons_self _ _)
    have hdb := digit_bounds d hd
    show skipWC (d :: (t ++ rest)) = _
    rw [skipWC_stop d _ (digit_not_space d hd) (by omega)]
    rfl

/-- C1: for every non-empty true-color image and both sample modes,
reading back the bytes written by ppm_write into a fresh image succeeds
and reproduces the original image, both as structural equality and under
image::operator==. -/
theorem c1_ppm_roundtrip (img : Image) (w h : Nat) (bin : Bool)
    (hrect : Rect img w h)
    (hok : ∀ row ∈ img, ∀ p ∈ row, PixOk p)
    (hw : 0 < w) (hh : 0 < h) :
    ppm_read [] (ppm_write img bin) = (true, img) ∧
    imgBeq (ppm_read [] (ppm_write img bin)).2 img = true := by
  have hwi : width img = w := rect_width img w h hrect hh
  have hhi : height img = h := hrect.1
  have hrows : ∀ row ∈ img, row.length = w ∧ ∀ p ∈ row, PixOk p :=
    fun row hr => ⟨hrect.2 row hr, hok row hr⟩
  have hmain : ppm_read [] (ppm_write img bin) = (true, img) := by
    have hbytes : ppm_write img bin
        = 80 :: (if bin then 54 else 51) ::
          (32 :: (decRep w ++ (32 :: (decRep h ++ (32 :: (decRep 255
            ++ (10 :: bodyEnc bin img))))))) := by
      unfold ppm_write headerBytes
      rw [hwi, hhi]
      cases bin with
      | true => simp [bodyBin_eq]
      | false => simp [bodyA_eq]
    rw [hbytes]
    have hskip1 : skipWC (32 :: (decRep w ++ (32 :: (decRep h ++ (32 :: (decRep 255
        ++ (10 :: bodyEnc bin img)))))))
        = decRep w ++ (32 :: (decRep h ++ (32 :: (decRep 255 ++ (10 :: bodyEnc bin img))))) := by
      rw [skipWC_cons_space 32 _ (by decide)]
      exact skipWC_digit_head _ _ (decRep_ne_nil w) (decRep_digits w)
    have hrd1 : readInt (decRep w ++ (32 :: (decRep h ++ (32 :: (decRep 255
        ++ (10 :: bodyEnc bin img))))))
        = some ((w : Int), 32 :: (decRep h ++ (32 :: (decRep 255 ++ (10 :: bodyEnc bin img))))) :=
      readInt_enc0 w _ (headNotDigit_cons 32 _ (by decide))
    have hskip2 : skipWC (32 :: (decRep h ++ (32 :: (decRep 255 ++ (10 :: bodyEnc bin img)))))
        = decRep h ++ (32 :: (decRep 255 ++ (10 :: bodyEnc bin img))) := by
      rw [skipWC_cons_space 32 _ (by decide)]
      exact skipWC_digit_head _ _ (decRep_ne_nil h) (decRep_digits h)
    have hrd2 : readInt (decRep h ++ (32 :: (decRep 255 ++ (10 :: bodyEnc bin img))))
        = some ((h : Int), 32 :: (decRep 255 ++ (10 :: bodyEnc bin img))) :=
      readInt_enc0 h _ (headNotDigit_cons 32 _ (by decide))
    have hskip3 : skipWC (32 :: (decRep 255 ++ (10 :: bodyEnc bin img)))
        = decRep 255 ++ (10 :: bodyEnc bin img) := by
      rw [skipWC_cons_space 32 _ (by decide)]
      exact skipWC_digit_head _ _ (decRep_ne_nil 255) (decRep_digits 255)
    have hrd3 : readInt (decRep 255 ++ (10 :: bodyEnc bin img))
        = some ((255 : Int), 10 :: bodyEnc bin img) :=
      readInt_enc0 255 _ (headNotDigit_cons 10 _ (by decide))
    have hst0 : Rect (resize [] w h BLACK) w h := rect_resize [] w h BLACK rect_nil
    obtain ⟨st2, lf, hloop, hrect2, hchar⟩ := readRows_enc bin w h hw img 0
      (resize [] w h BLACK) [] [] hst0 hrows (by have hl := hrect.1; omega)
      (by intro c hc; simp at hc) (fun _ => rfl)
    rw [List.nil_append, List.append_nil, hrect.1] at hloop
    have hfinal : st2 = img := by
      refine rect_ext w h st2 img hrect2 hrect ?_
      intro x y hx hy
      rw [hchar x y, if_pos (by rw [hrect.1]; omega)]
      have hidx : y - 0 = y := by omega
      rw [hidx]
      rfl
    have hguard : ¬(((((w : Int) ≤ 0 ∨ (h : Int) ≤ 0) ∨ (255 : Int) ≤ 0)
        ∨ (65536 : Int) ≤ 255) ∨ isSpaceB 10 = false) := by
      intro hcond
      have hsp : isSpaceB 10 = true := rfl
      rw [hsp] at hcond
      simp only [Bool.true_eq_false, or_false] at hcond
      omega
    cases bin with
    | true =>
      simp only [ppm_read]
      norm_num
      rw [hskip1, hrd1]
      simp only []
      rw [hskip2, hrd2]
      simp only []
      rw [hskip3, hrd3]
      simp only []
      rw [if_neg hguard]
      simp only [Int.toNat_natCast]
      rw [hloop]
      simp only []
      rw [hfinal]
    | false =>
      simp only [ppm_read]
      norm_num
      rw [hskip1, hrd1]
      simp only []
      rw [hskip2, hrd2]
      simp only []
      rw [hskip3, hrd3]
      simp only []
      rw [if_neg hguard]
      simp only [Int.toNat_natCast]
      rw [hloop]
      simp only []
      rw [hfinal]
  exact ⟨hmain, by rw [hmain]; exact imgBeq_refl img⟩

/-- Witness for C1 at a concrete input: a 1-by-2 two-color image,
written and read back in both binary (P6) and ASCII (P3) mode. -/
theorem c1_ppm_roundtrip_witness :
    (ppm_read [] (ppm_write [[⟨10, 20, 30⟩], [⟨40, 50, 60⟩]] true)
        = (true, [[⟨10, 20, 30⟩], [⟨40, 50, 60⟩]]) ∧
      imgBeq (ppm_read [] (ppm_write [[⟨10, 20, 30⟩], [⟨40, 50, 60⟩]] true)).2
        [[⟨10, 20, 30⟩], [⟨40, 50, 60⟩]] = true) ∧
    (ppm_read [] (ppm_write [[⟨10, 20, 30⟩], [⟨40, 50, 60⟩]] false)
        = (true, [[⟨10, 20, 30⟩], [⟨40, 50, 60⟩]]) ∧
      imgBeq (ppm_read [] (ppm_write [[⟨10, 20, 30⟩], [⟨40, 50, 60⟩]] false)).2
        [[⟨10, 20, 30⟩], [⟨40, 50, 60⟩]] = true) :=
  ⟨c1_ppm_roundtrip [[⟨10, 20, 30⟩], [⟨40, 50, 60⟩]] 1 2 true
      (by decide) (by decide) (by decide) (by decide),
    c1_ppm_roundtrip [[⟨10, 20, 30⟩], [⟨40, 50, 60⟩]] 1 2 false
      (by decide) (by decide) (by decide) (by decide)⟩

end Gfx
